import Mathlib

/-!
Verification development for the `Beam` beam-search decoder of
`parlai/core/torch_agent.py` (class `Beam`, lines 849-1151).

The decoder state and its operations are embedded shallowly:

* float tensors become lists of rationals (`List Rat`); scores are only
  added and compared by `advance`, so exact rational arithmetic models the
  intended real-number behaviour;
* `torch.topk` becomes `topk` below: the `k` largest entries of the
  flattened score vector, ties broken by lower flattened index (the
  deterministic order the specification ascribes to the flattening scheme);
* in-place tensor mutation is modelled by explicit state passing: the
  mutation `advance` performs on its input matrix is exposed as
  `Beam.masked_input`, and `Beam.advance` consumes the mutated matrix;
* out-of-range indexing, which raises in Python, is modelled with `List.getD`
  defaults; every theorem below carries the shape hypotheses under which the
  source never indexes out of range, so the defaults are never observed;
* `NEAR_INF` is imported by the source from `parlai.core.utils`, which is not
  part of the sources at hand.  Modelled from the spec: the spec calls the
  masking value the "negative-infinity-equivalent" finite sentinel; we use
  the value `1e20` as an exact rational.
-/

/-- Modelled from the spec: the finite sentinel standing for negative
infinity (`parlai.core.utils.NEAR_INF`, not under the sources at hand; the
spec calls it the negative-infinity-equivalent). -/
def NEAR_INF : Rat := 100000000000000000000

/-- The namedtuple `HypothesisTail(timestep, hypid, score, tokenid)` from
`Beam.__init__`: an immutable record identifying a trellis cell. -/
structure HypothesisTail where
  timestep : Nat
  hypid : Nat
  score : Rat
  tokenid : Nat
deriving DecidableEq, Repr

/-- State of the `Beam` class: configuration constants fixed by
`Beam.__init__` plus the per-step score/output/backpointer trellis. -/
structure Beam where
  beam_size : Nat
  min_length : Nat
  eos : Nat
  bos : Nat
  pad : Nat
  scores : List Rat
  all_scores : List (List Rat)
  bookkeep : List (List Nat)
  outputs : List (List Nat)
  finished : List HypothesisTail
  eos_top : Bool
  eos_top_ts : Option Nat
  n_best_counter : Nat
  min_n_best : Nat
  block_ngram : Nat
deriving DecidableEq, Repr

/-- Double indexing `xss[i][j]` with an explicit default for the
out-of-range case (which raises in the Python source). -/
def idx2 (xss : List (List α)) (i j : Nat) (d : α) : α :=
  (xss.getD i []).getD j d

/-- Embedding of `Beam.__init__`: fresh beam with all-zero initial scores,
an all-`bos` initial output row, no backpointers and no finished
hypotheses. -/
def Beam.init (beam_size min_length padding_token bos_token eos_token
    min_n_best block_ngram : Nat) : Beam where
  beam_size := beam_size
  min_length := min_length
  eos := eos_token
  bos := bos_token
  pad := padding_token
  scores := List.replicate beam_size 0
  all_scores := [List.replicate beam_size 0]
  bookkeep := []
  outputs := [List.replicate beam_size bos_token]
  finished := []
  eos_top := false
  eos_top_ts := none
  n_best_counter := 0
  min_n_best := min_n_best
  block_ngram := block_ngram

/-- Embedding of the static method `Beam.find_ngrams(input_list, n)`:
`list(zip(*[input_list[i:] for i in range(n)]))`.  For `n = 0` Python's
`zip()` of no arguments is empty; for `n ≥ 1` it yields the consecutive
length-`n` windows. -/
def Beam.find_ngrams (input_list : List Nat) (n : Nat) : List (List Nat) :=
  if n = 0 then []
  else (List.range (input_list.length + 1 - n)).map
    (fun i => (input_list.drop i).take n)

/-- Shared backpointer replay loop of `Beam.get_hyp_from_finished` and
`Beam.get_partial_hyp_from_tail`: walk from `(ts, endback)` down to
timestep 0, recording a `HypothesisTail` per visited cell and following
`bookkeep[i - 1][endback]` to the predecessor slot.  (At `i = 0` the source
computes one further backpointer read whose value is discarded.) -/
def Beam.replayFrom (b : Beam) : Nat → Nat → List HypothesisTail
  | 0, endback =>
      [⟨0, endback, idx2 b.all_scores 0 endback 0, idx2 b.outputs 0 endback 0⟩]
  | t + 1, endback =>
      ⟨t + 1, endback, idx2 b.all_scores (t + 1) endback 0,
          idx2 b.outputs (t + 1) endback 0⟩ ::
        b.replayFrom t (idx2 b.bookkeep t endback 0)

/-- Embedding of `Beam.get_hyp_from_finished(hypothesis_tail)`: replay the
backpointers from the tail's cell; the source returns the visited cells
with the tail's timestep first, down to timestep 0.  (The two `assert`
statements of the source are reflected as hypotheses of the theorems.) -/
def Beam.get_hyp_from_finished (b : Beam) (hypothesis_tail : HypothesisTail) :
    List HypothesisTail :=
  b.replayFrom hypothesis_tail.timestep hypothesis_tail.hypid

/-- Embedding of `Beam.get_partial_hyp_from_tail(ts, hypid)`: the same
replay for an arbitrary (not necessarily finished) cell. -/
def Beam.get_partial_hyp_from_tail (b : Beam) (ts hypid : Nat) :
    List HypothesisTail :=
  b.replayFrom ts hypid

/-- The token sequence of slot `i`'s hypothesis-so-far as computed inside
`Beam.advance`: replay from the current step, reverse to forward order, and
drop the leading `bos` token. -/
def Beam.current_hypo (b : Beam) (i : Nat) : List Nat :=
  (((b.get_partial_hyp_from_tail (b.outputs.length - 1) i).map
      HypothesisTail.tokenid).reverse).drop 1

/-- The n-gram test of `Beam.advance`: collect `find_ngrams(hypo, ng)` for
`ng in range(block_ngram)` (the source iterates `ng` from 0 to
`block_ngram - 1`) and test whether any collected n-gram occurs more than
once (`Counter` + `any(v > 1 ...)`). -/
def Beam.ngram_repeats (block_ngram : Nat) (hypo : List Nat) : Bool :=
  let current_ngrams := (List.range block_ngram).flatMap
    (fun ng => Beam.find_ngrams hypo ng)
  current_ngrams.any (fun g => 1 < current_ngrams.count g)

/-- Ordering used to model `torch.topk` on the flattened score vector:
larger value first, ties broken by lower flattened index. -/
def topk_rel : (Rat × Nat) → (Rat × Nat) → Prop :=
  fun a b => b.1 < a.1 ∨ (a.1 = b.1 ∧ a.2 ≤ b.2)

instance : DecidableRel topk_rel := fun a b => by
  unfold topk_rel; infer_instance

/-- Embedding of `torch.topk(flat, k)`: the `k` best `(value, index)` pairs
of `flat` in decreasing value order, ties resolved toward lower index. -/
def topk (flat : List Rat) (k : Nat) : List (Rat × Nat) :=
  ((flat.enum.map (fun p => (p.2, p.1))).insertionSort topk_rel).take k

/-- The in-place mutation `Beam.advance` performs on its input
`softmax_probs`: if the number of completed steps (`len(self.all_scores) - 1`)
is below `min_length`, the `eos` column of every row is overwritten by
`-NEAR_INF`; otherwise the matrix is untouched. -/
def Beam.masked_input (b : Beam) (m : List (List Rat)) : List (List Rat) :=
  if (b.all_scores.length : Int) - 1 < (b.min_length : Int) then
    m.map (fun row => row.set b.eos (-NEAR_INF))
  else m

/-- First overwrite of the slot loop in `Beam.advance`: if `block_ngram > 0`
and slot `i`'s hypothesis-so-far repeats a collected n-gram, its entire row
becomes `-NEAR_INF`. -/
def Beam.block_mask (b : Beam) (bs : List (List Rat)) (i : Nat) :
    List (List Rat) :=
  if 0 < b.block_ngram ∧ Beam.ngram_repeats b.block_ngram (b.current_hypo i) then
    bs.set i (List.replicate ((bs.getD i []).length) (-NEAR_INF))
  else bs

/-- Second overwrite of the slot loop in `Beam.advance`: if slot `i`'s
previous output token was `eos`, its entire row becomes `-NEAR_INF`. -/
def Beam.dead_mask (b : Beam) (prev : List Nat) (bs : List (List Rat))
    (i : Nat) : List (List Rat) :=
  if prev.getD i 0 = b.eos then
    bs.set i (List.replicate ((bs.getD i []).length) (-NEAR_INF))
  else bs

/-- One iteration of the slot loop of `Beam.advance`: the n-gram overwrite
followed by the dead-slot overwrite. -/
def Beam.slot_mask (b : Beam) (prev : List Nat) (bs : List (List Rat))
    (i : Nat) : List (List Rat) :=
  b.dead_mask prev (b.block_mask bs i) i

/-- The `beam_scores` matrix of `Beam.advance` past the first step: each
slot's cumulative score added to its (masked) row, then the slot loop over
`range(self.outputs[-1].size(0))`. -/
def Beam.beam_scores_rows (b : Beam) (m0 : List (List Rat)) :
    List (List Rat) :=
  let base := List.zipWith (fun row s => row.map (fun x => x + s))
    (b.masked_input m0) b.scores
  let prev := b.outputs.getLastD []
  (List.range prev.length).foldl (b.slot_mask prev) base

/-- The flattened candidate-score vector `Beam.advance` hands to
`torch.topk`: on the first step the (masked) row of slot 0
(`softmax_probs[0]`); on later steps the flattened `beam_scores` matrix. -/
def Beam.flat_scores (b : Beam) (m0 : List (List Rat)) : List Rat :=
  if b.bookkeep.isEmpty then (b.masked_input m0).headD []
  else (b.beam_scores_rows m0).flatten

/-- The `torch.topk(flatten_beam_scores, beam_size)` call of
`Beam.advance`: the selected (value, flattened index) pairs. -/
def Beam.best_pairs (b : Beam) (m0 : List (List Rat)) : List (Rat × Nat) :=
  topk (b.flat_scores m0) b.beam_size

/-- The `best_scores` committed by `Beam.advance` as the new cumulative
scores. -/
def Beam.new_scores (b : Beam) (m0 : List (List Rat)) : List Rat :=
  (b.best_pairs m0).map Prod.fst

/-- The `tok_ids = best_idxs % voc_size` row committed by `Beam.advance`
(`voc_size = softmax_probs.size(-1)`, the column count of the input). -/
def Beam.tok_ids (b : Beam) (m0 : List (List Rat)) : List Nat :=
  ((b.best_pairs m0).map Prod.snd).map (fun i => i % (m0.headD []).length)

/-- The `hyp_ids = best_idxs / voc_size` backpointer row committed by
`Beam.advance` (integer division of a torch long tensor). -/
def Beam.hyp_ids (b : Beam) (m0 : List (List Rat)) : List Nat :=
  ((b.best_pairs m0).map Prod.snd).map (fun i => i / (m0.headD []).length)

/-- The `HypothesisTail` records appended to `finished` by the completion
loop of `Beam.advance`: one per slot in `range(beam_size)` whose new token
equals `eos`, at timestep `len(self.outputs) - 1` after the commit. -/
def Beam.new_tails (b : Beam) (m0 : List (List Rat)) : List HypothesisTail :=
  (List.range b.beam_size).filterMap (fun hypid =>
    if (b.tok_ids m0).getD hypid 0 = b.eos then
      some ⟨(b.outputs ++ [b.tok_ids m0]).length - 1, hypid,
        (b.new_scores m0).getD hypid 0, b.eos⟩
    else none)

/-- Embedding of `Beam.advance(softmax_probs)`: mask short sequences,
compose scores, block and suppress rows, select the top `beam_size`
flattened entries, commit the new trellis rows, and do the completion
bookkeeping (including the `eos_top` latch and first-occurrence
`eos_top_ts`). -/
def Beam.advance (b : Beam) (m0 : List (List Rat)) : Beam :=
  { b with
    scores := b.new_scores m0
    all_scores := b.all_scores ++ [b.new_scores m0]
    outputs := b.outputs ++ [b.tok_ids m0]
    bookkeep := b.bookkeep ++ [b.hyp_ids m0]
    finished := b.finished ++ b.new_tails m0
    n_best_counter := b.n_best_counter + (b.new_tails m0).length
    eos_top := b.eos_top || decide ((b.tok_ids m0).getD 0 0 = b.eos)
    eos_top_ts :=
      if (b.tok_ids m0).getD 0 0 = b.eos then
        match b.eos_top_ts with
        | none => some ((b.outputs ++ [b.tok_ids m0]).length - 1)
        | some x => some x
      else b.eos_top_ts }

/-- Fold of `Beam.advance` over a list of per-step score matrices: the
external decode loop feeding `advance` once per step. -/
def Beam.advanceAll (b : Beam) (ms : List (List (List Rat))) : Beam :=
  ms.foldl Beam.advance b

/-- Embedding of `Beam.done()`: `self.eos_top and
self.n_best_counter >= self.min_n_best`. -/
def Beam.done (b : Beam) : Bool :=
  b.eos_top && decide (b.min_n_best ≤ b.n_best_counter)

/-- Embedding of `Beam.check_finished()`: if nothing is finished, force the
token at slot 0 of the current step to `eos` and record the single
synthesized `HypothesisTail` (score `all_scores[-1][0]`, token the value
just written). -/
def Beam.check_finished (b : Beam) : Beam :=
  if b.finished.length = 0 then
    let last_row := (b.outputs.getLastD []).set 0 b.eos
    let outputs := b.outputs.set (b.outputs.length - 1) last_row
    let hyptail : HypothesisTail :=
      ⟨b.outputs.length - 1, 0, (b.all_scores.getLastD []).getD 0 0,
        last_row.getD 0 0⟩
    { b with outputs := outputs, finished := b.finished ++ [hyptail] }
  else b

/-- Rescoring of one finished record by a length-penalty map `lp`: the
source computes `score / math.pow((1 + (timestep + 1)) / 6, 0.65)`, i.e.
divides by `lp (timestep + 1)` for the Google-NMT penalty map `lp`. -/
def rescoreTail (lp : Nat → Rat) (f : HypothesisTail) : HypothesisTail :=
  ⟨f.timestep, f.hypid, f.score / lp (f.timestep + 1), f.tokenid⟩

/-- Ordering used to model `sorted(..., key=attrgetter('score'),
reverse=True)`: non-increasing score. -/
def rescore_rel : HypothesisTail → HypothesisTail → Prop :=
  fun a b => b.score ≤ a.score

instance : DecidableRel rescore_rel := fun a b => by
  unfold rescore_rel; infer_instance

/-- Embedding of `Beam.get_rescored_finished(n_best)`.  The source divides
each finished score by the transcendental penalty
`((1 + (timestep + 1)) / 6) ** 0.65`; that real power has no exact rational
value, so the penalty map is taken as a parameter `lp` and every theorem
below holds for each choice of `lp`, in particular for the source's
Google-NMT penalty. -/
def Beam.get_rescored_finished (b : Beam) (lp : Nat → Rat)
    (n_best : Option Nat) : List HypothesisTail :=
  let rescored_finished := b.finished.map (rescoreTail lp)
  let srted := rescored_finished.insertionSort rescore_rel
  match n_best with
  | some k => srted.take k
  | none => srted

/-- Fallible construction: `torch.Tensor(beam_size)` in `Beam.__init__`
raises for a negative size; otherwise construction always succeeds (the
constructor performs no further validation). -/
def Beam.initChk (beam_size : Int) (min_length padding_token bos_token
    eos_token min_n_best block_ngram : Nat) : Option Beam :=
  if beam_size < 0 then none
  else some (Beam.init beam_size.toNat min_length padding_token bos_token
    eos_token min_n_best block_ngram)

/-- Fallible `advance`: `none` exactly when the tensor operations of the
source raise.  On the first step `softmax_probs[0]` raises when the input
has no rows, and `torch.topk` raises when `beam_size` exceeds the flattened
size; on later steps the broadcast against `self.scores` requires matching
row counts and `torch.topk` again requires `beam_size` many entries. -/
def Beam.advanceChk (b : Beam) (m : List (List Rat)) : Option Beam :=
  if b.bookkeep.isEmpty then
    match m.head? with
    | none => none
    | some r => if b.beam_size ≤ r.length then some (b.advance m) else none
  else
    if m.length = b.scores.length ∧ b.beam_size ≤ (b.flat_scores m).length then
      some (b.advance m)
    else none

/-- Shape contract of the decode loop: every supplied matrix has
`beam_width` rows of `vocabulary_size` entries each. -/
def Conformant (bw voc : Nat) (ms : List (List (List Rat))) : Prop :=
  ∀ m ∈ ms, m.length = bw ∧ ∀ row ∈ m, row.length = voc

/-- Finiteness contract on supplied scores: every entry is strictly above
the `-NEAR_INF` sentinel. -/
def FiniteScores (ms : List (List (List Rat))) : Prop :=
  ∀ m ∈ ms, ∀ row ∈ m, ∀ x ∈ row, -NEAR_INF < x

/-- Concrete decode: width 1, `min_length` 0, vocabulary 3, one step whose
best token is `eos` (= 2). -/
def exRun1 : Beam := (Beam.init 1 0 0 1 2 3 0).advanceAll [[[-1, -2, 0]]]

/-- Concrete decode with `block_ngram = 1`: width 1, `min_length` 0,
vocabulary 4, three steps favouring token 3, token 3, then `eos`. -/
def exRunBlock : Beam := (Beam.init 1 0 0 1 2 3 1).advanceAll
  [[[-10, -10, -10, 0]], [[-10, -10, -10, 0]], [[-10, -10, 0, -10]]]

/-- Concrete decode: width 3 equal to the vocabulary size, `min_length` 2,
one step of all-equal scores. -/
def exRun3 : Beam := (Beam.init 3 2 0 1 2 3 0).advanceAll
  [[[0, 0, 0], [0, 0, 0], [0, 0, 0]]]

/-- Fresh beam with `min_length` 3, used to exercise the input mask. -/
def exFresh : Beam := Beam.init 1 3 0 1 2 3 0

instance (bw voc : Nat) (ms : List (List (List Rat))) :
    Decidable (Conformant bw voc ms) := by
  unfold Conformant; infer_instance

instance (ms : List (List (List Rat))) : Decidable (FiniteScores ms) := by
  unfold FiniteScores; infer_instance

/-- Totality of the top-k ordering. -/
theorem topk_rel_total (a b : Rat × Nat) : topk_rel a b ∨ topk_rel b a := by
  unfold topk_rel
  rcases lt_trichotomy a.1 b.1 with h | h | h
  · exact Or.inr (Or.inl h)
  · rcases Nat.le_total a.2 b.2 with h2 | h2
    · exact Or.inl (Or.inr ⟨h, h2⟩)
    · exact Or.inr (Or.inr ⟨h.symm, h2⟩)
  · exact Or.inl (Or.inl h)

instance : IsTotal (Rat × Nat) topk_rel := ⟨topk_rel_total⟩

/-- Transitivity of the top-k ordering. -/
theorem topk_rel_trans (a b c : Rat × Nat) (hab : topk_rel a b)
    (hbc : topk_rel b c) : topk_rel a c := by
  unfold topk_rel at hab hbc ⊢
  rcases hab with h1 | ⟨h1, h1i⟩ <;> rcases hbc with h2 | ⟨h2, h2i⟩
  · exact Or.inl (h2.trans h1)
  · exact Or.inl (h2 ▸ h1)
  · exact Or.inl (h1.symm ▸ h2)
  · exact Or.inr ⟨h1.trans h2, h1i.trans h2i⟩

instance : IsTrans (Rat × Nat) topk_rel := ⟨topk_rel_trans⟩

/-- When there are at least `k` candidates, `topk` returns exactly `k`. -/
theorem topk_length {flat : List Rat} {k : Nat} (h : k ≤ flat.length) :
    (topk flat k).length = k := by
  unfold topk
  rw [List.length_take, List.length_insertionSort, List.length_map,
    List.enum_length]
  omega

/-- Every selected pair is a genuine (value, index) pair of the input. -/
theorem topk_mem {flat : List Rat} {k : Nat} {p : Rat × Nat}
    (h : p ∈ topk flat k) : p.2 < flat.length ∧ flat.getD p.2 0 = p.1 := by
  unfold topk at h
  have h1 := List.mem_of_mem_take h
  have h2 := (List.perm_insertionSort topk_rel _).mem_iff.mp h1
  obtain ⟨q, hq, hpq⟩ := List.mem_map.mp h2
  obtain ⟨hlt, hval⟩ := List.mem_enum hq
  subst hpq
  refine ⟨hlt, ?_⟩
  rw [List.getD_eq_getElem _ _ hlt]
  exact hval.symm

/-- A list member failing the predicate keeps the count strictly below the
length. -/
theorem countP_lt_length_of_mem {α : Type} {P : α → Bool} {l : List α} {a : α}
    (ha : a ∈ l) (hPa : P a = false) : List.countP P l < l.length := by
  obtain ⟨s, t, rfl⟩ := List.append_of_mem ha
  rw [List.countP_append, List.countP_cons, List.length_append,
    List.length_cons, hPa]
  have hs := @List.countP_le_length _ P s
  have ht := @List.countP_le_length _ P t
  norm_num
  omega

/-- Key property of `topk`: a selected value is strictly exceeded by fewer
than `k` entries of the input (otherwise those entries would fill the
selection first). -/
theorem topk_countP_lt {flat : List Rat} {k : Nat} {p : Rat × Nat}
    (hp : p ∈ topk flat k) :
    List.countP (fun x => decide (p.1 < x)) flat < k := by
  unfold topk at hp
  set pr := flat.enum.map (fun q => (q.2, q.1)) with hpr
  set s := pr.insertionSort topk_rel with hs
  have hsorted : List.Sorted topk_rel s := List.sorted_insertionSort topk_rel pr
  have hdrop : List.countP (fun q => decide (p.1 < q.1)) (s.drop k) = 0 := by
    rw [List.countP_eq_zero]
    intro q hq
    have hrel := hsorted.rel_of_mem_take_of_mem_drop hp hq
    unfold topk_rel at hrel
    simp only [decide_eq_true_eq]
    rcases hrel with h | ⟨h, _⟩
    · exact fun hc => absurd (hc.trans h) (lt_irrefl _)
    · exact fun hc => absurd (h ▸ hc) (lt_irrefl _)
  have htake : List.countP (fun q => decide (p.1 < q.1)) (s.take k) < k := by
    have hlt := @countP_lt_length_of_mem _ (fun q => decide (p.1 < q.1)) _ _
      hp (decide_eq_false (lt_irrefl p.1))
    have hlen : (s.take k).length ≤ k := by
      rw [List.length_take]; omega
    omega
  have hsplit : List.countP (fun q => decide (p.1 < q.1)) s < k := by
    conv_lhs => rw [← List.take_append_drop k s]
    rw [List.countP_append, hdrop]
    omega
  have hperm : List.countP (fun q => decide (p.1 < q.1)) s
      = List.countP (fun q => decide (p.1 < q.1)) pr :=
    (List.perm_insertionSort topk_rel pr).countP_eq _
  have hflat : List.countP (fun q => decide (p.1 < q.1)) pr
      = List.countP (fun x => decide (p.1 < x)) flat := by
    rw [hpr, List.countP_map]
    conv_rhs => rw [← List.enum_map_snd flat, List.countP_map]
    rfl
  omega

/-- Writing a row of matching length anywhere preserves every row length. -/
theorem getD_set_length (bs : List (List Rat)) (i j : Nat) (v : List Rat)
    (hv : v.length = (bs.getD i []).length) :
    ((bs.set i v).getD j []).length = (bs.getD j []).length := by
  by_cases hij : i = j
  · subst hij
    by_cases hi : i < bs.length
    · have hv2 : v.length = bs[i].length := by
        rw [← List.getD_eq_getElem bs [] hi]; exact hv
      rw [List.getD_eq_getElem?_getD, List.getElem?_set_self hi,
        List.getD_eq_getElem?_getD, List.getElem?_eq_getElem hi]
      simpa using hv2
    · rw [List.set_eq_of_length_le (by omega)]
  · rw [List.getD_eq_getElem?_getD, List.getElem?_set_ne hij,
      ← List.getD_eq_getElem?_getD]

/-- A fold whose steps preserve the row structure preserves it globally. -/
theorem foldl_shape {g : List (List Rat) → Nat → List (List Rat)}
    (hg : ∀ bs i, (g bs i).length = bs.length ∧
      ∀ j, ((g bs i).getD j []).length = (bs.getD j []).length)
    (idxs : List Nat) :
    ∀ bs, ((idxs.foldl g bs).length = bs.length ∧
      ∀ j, ((idxs.foldl g bs).getD j []).length = (bs.getD j []).length) := by
  induction idxs with
  | nil => exact fun bs => ⟨rfl, fun j => rfl⟩
  | cons i rest ih =>
    intro bs
    have h1 := hg bs i
    have h2 := ih (g bs i)
    exact ⟨h2.1.trans h1.1, fun j => (h2.2 j).trans (h1.2 j)⟩

/-- Length of the concatenation of uniformly sized rows. -/
theorem flatten_length_uniform {rows : List (List Rat)} {voc : Nat}
    (hw : ∀ v ∈ rows, v.length = voc) :
    rows.flatten.length = rows.length * voc := by
  induction rows with
  | nil => simp
  | cons r rest ih =>
    rw [List.flatten_cons, List.length_append,
      hw r (List.mem_cons_self r rest),
      ih (fun v hv => hw v (List.mem_cons_of_mem r hv)), List.length_cons]
    ring

/-- Indexing into the concatenation of uniformly sized rows. -/
theorem flatten_getD_uniform {rows : List (List Rat)} {voc : Nat}
    (hw : ∀ v ∈ rows, v.length = voc) :
    ∀ q r : Nat, q < rows.length → r < voc →
      rows.flatten.getD (q * voc + r) 0 = (rows.getD q []).getD r 0 := by
  induction rows with
  | nil => intro q r hq hr; simp at hq
  | cons row rest ih =>
    intro q r hq hr
    have hrow : row.length = voc := hw row (List.mem_cons_self row rest)
    cases q with
    | zero =>
      rw [List.flatten_cons, Nat.zero_mul, Nat.zero_add,
        List.getD_append _ _ _ _ (by omega)]
      rfl
    | succ q2 =>
      rw [List.flatten_cons,
        List.getD_append_right _ _ _ _ (by rw [hrow, Nat.succ_mul]; omega)]
      have harith : (q2 + 1) * voc + r - row.length = q2 * voc + r := by
        rw [hrow, Nat.succ_mul]; omega
      rw [harith]
      have hq2 : q2 < rest.length := by simpa using hq
      rw [ih (fun v hv => hw v (List.mem_cons_of_mem row hv)) q2 r hq2 hr]
      rfl

/-- Mapping a length- and nil-preserving row transform preserves every
row length read through `getD`. -/
theorem getD_map_length (m : List (List Rat)) (f : List Rat → List Rat)
    (hf : ∀ row, (f row).length = row.length) (q : Nat) :
    ((m.map f).getD q []).length = (m.getD q []).length := by
  by_cases hq : q < m.length
  · rw [List.getD_eq_getElem _ _ (by simpa using hq), List.getElem_map,
      List.getD_eq_getElem _ _ hq, hf]
  · rw [List.getD_eq_getElem?_getD, List.getElem?_eq_none (by simpa using hq),
      List.getD_eq_getElem?_getD, List.getElem?_eq_none (by omega)]

/-- Row lengths after the input mask of `advance`. -/
theorem masked_input_row_length (b : Beam) (m : List (List Rat)) (q : Nat) :
    ((b.masked_input m).getD q []).length = (m.getD q []).length := by
  unfold Beam.masked_input
  split
  · exact getD_map_length m _ (fun row => List.length_set row b.eos (-NEAR_INF)) q
  · rfl

/-- The input mask preserves the row count. -/
theorem masked_input_length (b : Beam) (m : List (List Rat)) :
    (b.masked_input m).length = m.length := by
  unfold Beam.masked_input
  split
  · exact List.length_map m _
  · rfl

/-- Overwriting row `i` with a same-length constant row preserves shape. -/
theorem set_replicate_shape (bs : List (List Rat)) (i : Nat) :
    (bs.set i (List.replicate ((bs.getD i []).length) (-NEAR_INF))).length
        = bs.length ∧
      ∀ j, ((bs.set i (List.replicate ((bs.getD i []).length)
        (-NEAR_INF))).getD j []).length = (bs.getD j []).length :=
  ⟨List.length_set bs i _,
    fun j => getD_set_length bs i j _ (List.length_replicate _ _)⟩

/-- The slot loop step preserves the row structure. -/
theorem slot_mask_shape (b : Beam) (prev : List Nat) :
    ∀ bs i, ((b.slot_mask prev bs i).length = bs.length ∧
      ∀ j, ((b.slot_mask prev bs i).getD j []).length
        = (bs.getD j []).length) := by
  intro bs i
  have h1 : (b.block_mask bs i).length = bs.length ∧
      ∀ j, ((b.block_mask bs i).getD j []).length = (bs.getD j []).length := by
    unfold Beam.block_mask
    split
    · exact set_replicate_shape bs i
    · exact ⟨rfl, fun j => rfl⟩
  have h2 : (b.dead_mask prev (b.block_mask bs i) i).length
      = (b.block_mask bs i).length ∧
      ∀ j, ((b.dead_mask prev (b.block_mask bs i) i).getD j []).length
        = ((b.block_mask bs i).getD j []).length := by
    unfold Beam.dead_mask
    split
    · exact set_replicate_shape _ i
    · exact ⟨rfl, fun j => rfl⟩
  exact ⟨h2.1.trans h1.1, fun j => (h2.2 j).trans (h1.2 j)⟩

/-- Row structure of the `beam_scores` matrix. -/
theorem beam_scores_rows_shape (b : Beam) (m : List (List Rat)) (voc : Nat)
    (hrows : ∀ row ∈ m, row.length = voc)
    (hm : m.length = b.scores.length) :
    (b.beam_scores_rows m).length = b.scores.length ∧
      ∀ v ∈ b.beam_scores_rows m, v.length = voc := by
  unfold Beam.beam_scores_rows
  have hshape := foldl_shape (slot_mask_shape b (b.outputs.getLastD []))
    (List.range (b.outputs.getLastD []).length)
    (List.zipWith (fun row s => row.map (fun x => x + s))
      (b.masked_input m) b.scores)
  have hbaselen : (List.zipWith (fun row s => row.map (fun x => x + s))
      (b.masked_input m) b.scores).length = b.scores.length := by
    rw [List.length_zipWith, masked_input_length, hm, Nat.min_self]
  refine ⟨hshape.1.trans hbaselen, ?_⟩
  intro v hv
  obtain ⟨j, hj, hvj⟩ := List.mem_iff_getElem.mp hv
  have hjlen : j < b.scores.length := by
    rw [← hbaselen, ← hshape.1]; exact hj
  have hbase : ((List.zipWith (fun row s => row.map (fun x => x + s))
      (b.masked_input m) b.scores).getD j []).length = voc := by
    have hjb : j < (List.zipWith (fun row s => row.map (fun x => x + s))
        (b.masked_input m) b.scores).length := by omega
    rw [List.getD_eq_getElem _ _ hjb, List.getElem_zipWith, List.length_map]
    have hjm : j < (b.masked_input m).length := by
      rw [masked_input_length]; omega
    rw [← List.getD_eq_getElem (b.masked_input m) [] hjm,
      masked_input_row_length]
    have hjm2 : j < m.length := by omega
    rw [List.getD_eq_getElem m [] hjm2]
    exact hrows _ (List.getElem_mem hjm2)
  calc v.length = (((List.range (b.outputs.getLastD []).length).foldl
        (b.slot_mask (b.outputs.getLastD [])) _).getD j []).length := by
        rw [List.getD_eq_getElem _ _ hj, hvj]
    _ = voc := by rw [hshape.2 j]; exact hbase

/-- The first row of a masked nonempty input keeps its length. -/
theorem masked_input_headD_length (b : Beam) (r : List Rat)
    (rest : List (List Rat)) :
    ((b.masked_input (r :: rest)).headD []).length = r.length := by
  unfold Beam.masked_input
  split
  · simp [List.length_set]
  · rfl

/-- Length of the flattened candidate-score vector handed to `topk`. -/
theorem flat_scores_length (b : Beam) (m : List (List Rat)) (voc : Nat)
    (hrows : ∀ row ∈ m, row.length = voc)
    (hm : m.length = b.scores.length) (hne : b.scores ≠ []) :
    (b.flat_scores m).length =
      if b.bookkeep.isEmpty then voc else b.scores.length * voc := by
  unfold Beam.flat_scores
  split
  · cases m with
    | nil =>
      exact absurd (List.length_eq_zero.mp (by simpa using hm.symm)) hne
    | cons r rest =>
      rw [masked_input_headD_length]
      exact hrows r (List.mem_cons_self r rest)
  · have h := beam_scores_rows_shape b m voc hrows hm
    rw [flatten_length_uniform h.2, h.1]

/-- Well-formedness of a beam state with width `bw` and vocabulary `voc`:
the shape facts of the data-model invariants plus validity of the recorded
finished tails. -/
structure WF (bw voc : Nat) (b : Beam) : Prop where
  bs_eq : b.beam_size = bw
  sc_len : b.scores.length = bw
  as_out : b.all_scores.length = b.outputs.length
  bk_out : b.bookkeep.length + 1 = b.outputs.length
  as_w : ∀ v ∈ b.all_scores, v.length = bw
  out_w : ∀ v ∈ b.outputs, v.length = bw
  bk_w : ∀ v ∈ b.bookkeep, v.length = bw
  bk_lt : ∀ v ∈ b.bookkeep, ∀ x ∈ v, x < bw
  out0 : b.outputs.getD 0 [] = List.replicate bw b.bos
  fin : ∀ t ∈ b.finished, 1 ≤ t.timestep ∧ t.timestep < b.outputs.length ∧
    t.hypid < bw ∧ idx2 b.outputs t.timestep t.hypid 0 = b.eos ∧
    t.tokenid = b.eos

/-- A fresh beam is well formed. -/
theorem WF_init (bw voc min_length pad bos eos mnb bng : Nat) :
    WF bw voc (Beam.init bw min_length pad bos eos mnb bng) := by
  constructor <;> simp [Beam.init]

/-- The flattened score vector has at least `beam_size` entries under the
shape contract. -/
theorem flat_scores_le_length {bw voc : Nat} {b : Beam} {m : List (List Rat)}
    (hwf : WF bw voc b) (hbw1 : 1 ≤ bw) (hbwv : bw ≤ voc)
    (hm : m.length = bw) (hrows : ∀ row ∈ m, row.length = voc) :
    bw ≤ (b.flat_scores m).length := by
  have hne : b.scores ≠ [] := by
    intro h
    have := hwf.sc_len
    rw [h] at this
    simp at this
    omega
  rw [flat_scores_length b m voc hrows (by rw [hm, hwf.sc_len]) hne]
  split
  · exact hbwv
  · rw [hwf.sc_len]
    exact Nat.le_mul_of_pos_right bw (by omega)

/-- The column count of a conformant input is `voc`. -/
theorem headD_length_of_rows {m : List (List Rat)} {bw voc : Nat}
    (hm : m.length = bw) (hrows : ∀ row ∈ m, row.length = voc)
    (hbw1 : 1 ≤ bw) : (m.headD []).length = voc := by
  cases m with
  | nil => simp at hm; omega
  | cons r rest => exact hrows r (List.mem_cons_self r rest)

/-- The selection has exactly `beam_size` entries under the shape
contract. -/
theorem best_pairs_length {bw voc : Nat} {b : Beam} {m : List (List Rat)}
    (hwf : WF bw voc b) (hbw1 : 1 ≤ bw) (hbwv : bw ≤ voc)
    (hm : m.length = bw) (hrows : ∀ row ∈ m, row.length = voc) :
    (b.best_pairs m).length = bw := by
  unfold Beam.best_pairs
  rw [hwf.bs_eq]
  exact topk_length (flat_scores_le_length hwf hbw1 hbwv hm hrows)

/-- Advancing a well-formed beam under the shape contract yields a
well-formed beam. -/
theorem WF_advance {bw voc : Nat} {b : Beam} {m : List (List Rat)}
    (hwf : WF bw voc b) (hbw1 : 1 ≤ bw) (hbwv : bw ≤ voc)
    (hm : m.length = bw) (hrows : ∀ row ∈ m, row.length = voc) :
    WF bw voc (b.advance m) := by
  have hvoc : (m.headD []).length = voc := headD_length_of_rows hm hrows hbw1
  have hvoc1 : 1 ≤ voc := le_trans hbw1 hbwv
  have hbest : (b.best_pairs m).length = bw :=
    best_pairs_length hwf hbw1 hbwv hm hrows
  have hsc : (b.new_scores m).length = bw := by
    unfold Beam.new_scores; rw [List.length_map, hbest]
  have htok : (b.tok_ids m).length = bw := by
    unfold Beam.tok_ids; rw [List.length_map, List.length_map, hbest]
  have hhyp : (b.hyp_ids m).length = bw := by
    unfold Beam.hyp_ids; rw [List.length_map, List.length_map, hbest]
  have houtne : 1 ≤ b.outputs.length := by
    have := hwf.bk_out; omega
  have hhyp_lt : ∀ x ∈ b.hyp_ids m, x < bw := by
    intro x hx
    unfold Beam.hyp_ids at hx
    obtain ⟨i, hi, rfl⟩ := List.mem_map.mp hx
    obtain ⟨p, hp, rfl⟩ := List.mem_map.mp hi
    have hplen := (topk_mem hp).1
    have hlenflat := flat_scores_length b m voc hrows
      (by rw [hm, hwf.sc_len]) (by
        intro h
        have := hwf.sc_len
        rw [h] at this
        simp at this
        omega)
    rw [hlenflat] at hplen
    rw [hvoc]
    by_cases hbk : b.bookkeep.isEmpty
    · rw [if_pos hbk] at hplen
      rw [Nat.div_eq_of_lt hplen]
      omega
    · rw [if_neg hbk, hwf.sc_len] at hplen
      rw [Nat.div_lt_iff_lt_mul (by omega)]
      omega
  constructor
  case bs_eq => exact hwf.bs_eq
  case sc_len => exact hsc
  case as_out =>
    simp only [Beam.advance, List.length_append, List.length_cons,
      List.length_nil]
    rw [hwf.as_out]
  case bk_out =>
    simp only [Beam.advance, List.length_append, List.length_cons,
      List.length_nil]
    rw [← hwf.bk_out]
  case as_w =>
    intro v hv
    simp only [Beam.advance] at hv
    rcases List.mem_append.mp hv with h | h
    · exact hwf.as_w v h
    · rw [List.mem_singleton.mp h]; exact hsc
  case out_w =>
    intro v hv
    simp only [Beam.advance] at hv
    rcases List.mem_append.mp hv with h | h
    · exact hwf.out_w v h
    · rw [List.mem_singleton.mp h]; exact htok
  case bk_w =>
    intro v hv
    simp only [Beam.advance] at hv
    rcases List.mem_append.mp hv with h | h
    · exact hwf.bk_w v h
    · rw [List.mem_singleton.mp h]; exact hhyp
  case bk_lt =>
    intro v hv x hx
    simp only [Beam.advance] at hv
    rcases List.mem_append.mp hv with h | h
    · exact hwf.bk_lt v h x hx
    · rw [List.mem_singleton.mp h] at hx; exact hhyp_lt x hx
  case out0 =>
    simp only [Beam.advance]
    rw [List.getD_append _ _ _ _ (by omega)]
    exact hwf.out0
  case fin =>
    intro t ht
    simp only [Beam.advance] at ht
    rcases List.mem_append.mp ht with h | h
    · obtain ⟨h1, h2, h3, h4, h5⟩ := hwf.fin t h
      refine ⟨h1, ?_, h3, ?_, h5⟩
      · simp only [Beam.advance, List.length_append, List.length_cons,
          List.length_nil]
        omega
      · simp only [Beam.advance]
        unfold idx2 at h4 ⊢
        rw [List.getD_append _ _ _ _ h2]
        exact h4
    · unfold Beam.new_tails at h
      obtain ⟨hypid, hhm, hcond⟩ := List.mem_filterMap.mp h
      by_cases hc : (b.tok_ids m).getD hypid 0 = b.eos
      · rw [if_pos hc] at hcond
        obtain rfl := Option.some_injective _ hcond
        have hlt : hypid < bw := by
          have := List.mem_range.mp hhm
          rw [hwf.bs_eq] at this
          exact this
        refine ⟨?_, ?_, hlt, ?_, rfl⟩
        · simp only [List.length_append, List.length_cons, List.length_nil]
          omega
        · simp only [Beam.advance, List.length_append, List.length_cons,
            List.length_nil]
          omega
        · simp only [Beam.advance]
          unfold idx2
          simp only [List.length_append, List.length_cons, List.length_nil]
          have harith : b.outputs.length + 1 - 1 = b.outputs.length := by omega
          rw [harith, List.getD_append_right _ _ _ _ (by omega)]
          simp only [Nat.sub_self]
          rw [show (([(b.tok_ids m)]).getD 0 []) = b.tok_ids m from rfl]
          exact hc
      · rw [if_neg hc] at hcond
        exact absurd hcond (by simp)

/-- Unfolding step of the decode fold. -/
theorem advanceAll_cons (b : Beam) (m : List (List Rat))
    (rest : List (List (List Rat))) :
    b.advanceAll (m :: rest) = (b.advance m).advanceAll rest := rfl

/-- Base case of the decode fold. -/
theorem advanceAll_nil (b : Beam) : b.advanceAll [] = b := rfl

/-- Well-formedness is preserved along a conformant decode. -/
theorem WF_advanceAll {bw voc : Nat} (hbw1 : 1 ≤ bw) (hbwv : bw ≤ voc) :
    ∀ (ms : List (List (List Rat))) (b : Beam), WF bw voc b →
      Conformant bw voc ms → WF bw voc (b.advanceAll ms) := by
  intro ms
  induction ms with
  | nil => exact fun b h _ => h
  | cons m rest ih =>
    intro b hwf hms
    rw [advanceAll_cons]
    have hm := hms m (List.mem_cons_self m rest)
    exact ih (b.advance m) (WF_advance hwf hbw1 hbwv hm.1 hm.2)
      (fun m2 h2 => hms m2 (List.mem_cons_of_mem m h2))

/-- Last-element read as positional read. -/
theorem getLastD_eq_getD {α : Type} (l : List α) (d : α) :
    l.getLastD d = l.getD (l.length - 1) d := by
  rw [List.getLastD_eq_getLast?, List.getLast?_eq_getElem?,
    List.getD_eq_getElem?_getD]

/-- Dropping the head keeps the last element of a still-nonempty list. -/
theorem getLastD_cons_of_length_pos {α : Type} {l : List α} (a d : α)
    (h : 0 < l.length) : (a :: l).getLastD d = l.getLastD d := by
  cases l with
  | nil => simp at h
  | cons b t =>
    rw [List.getLastD_eq_getLast?, List.getLastD_eq_getLast?,
      List.getLast?_cons_cons]

/-- Specification of the backpointer replay on a well-formed beam: walking
from a valid cell yields `ts + 1` records, the cell itself first, with
strictly descending timesteps, each record quoting the trellis entries of
its own cell, and the final record sitting at timestep 0 on a `bos`
token. -/
theorem replayFrom_spec {bw voc : Nat} {b : Beam} (hwf : WF bw voc b) :
    ∀ ts h, ts < b.outputs.length → h < bw →
      (b.replayFrom ts h).length = ts + 1 ∧
      (b.replayFrom ts h).headD ⟨0, 0, 0, 0⟩ =
        ⟨ts, h, idx2 b.all_scores ts h 0, idx2 b.outputs ts h 0⟩ ∧
      (∀ j, j ≤ ts → ∃ h2, h2 < bw ∧
        (b.replayFrom ts h).getD j ⟨0, 0, 0, 0⟩ =
          ⟨ts - j, h2, idx2 b.all_scores (ts - j) h2 0,
            idx2 b.outputs (ts - j) h2 0⟩) ∧
      (∃ h0, h0 < bw ∧ (b.replayFrom ts h).getLastD ⟨0, 0, 0, 0⟩ =
        ⟨0, h0, idx2 b.all_scores 0 h0 0, b.bos⟩) := by
  intro ts
  induction ts with
  | zero =>
    intro h hts hh
    have hbos : idx2 b.outputs 0 h 0 = b.bos := by
      unfold idx2
      rw [hwf.out0, List.getD_eq_getElem _ _ (by
        rw [List.length_replicate]; exact hh)]
      simp
    refine ⟨rfl, rfl, ?_, h, hh, ?_⟩
    · intro j hj
      interval_cases j
      exact ⟨h, hh, rfl⟩
    · rw [Beam.replayFrom]
      rw [show ([(⟨0, h, idx2 b.all_scores 0 h 0,
        idx2 b.outputs 0 h 0⟩ : HypothesisTail)]).getLastD ⟨0, 0, 0, 0⟩ =
        ⟨0, h, idx2 b.all_scores 0 h 0, idx2 b.outputs 0 h 0⟩ from rfl, hbos]
  | succ t ih =>
    intro h hts hh
    have htbk : t < b.bookkeep.length := by
      have := hwf.bk_out; omega
    have hrow : b.bookkeep.getD t [] ∈ b.bookkeep := by
      rw [List.getD_eq_getElem _ _ htbk]
      exact List.getElem_mem htbk
    have hrowlen : (b.bookkeep.getD t []).length = bw := hwf.bk_w _ hrow
    have hh2 : idx2 b.bookkeep t h 0 < bw := by
      unfold idx2
      apply hwf.bk_lt _ hrow
      rw [List.getD_eq_getElem _ _
        (show h < (b.bookkeep.getD t []).length by rw [hrowlen]; exact hh)]
      exact List.getElem_mem _
    have hts2 : t < b.outputs.length := by omega
    obtain ⟨ihlen, ihhead, ihget, ihlast⟩ :=
      ih (idx2 b.bookkeep t h 0) hts2 hh2
    rw [Beam.replayFrom]
    refine ⟨?_, rfl, ?_, ?_⟩
    · rw [List.length_cons, ihlen]
    · intro j hj
      cases j with
      | zero => exact ⟨h, hh, rfl⟩
      | succ j2 =>
        obtain ⟨h2, hh2b, heq⟩ := ihget j2 (by omega)
        refine ⟨h2, hh2b, ?_⟩
        have harith : t + 1 - (j2 + 1) = t - j2 := by omega
        rw [List.getD_cons_succ, heq, harith]
    · obtain ⟨h0, hh0, heq⟩ := ihlast
      refine ⟨h0, hh0, ?_⟩
      rw [getLastD_cons_of_length_pos _ _ (by rw [ihlen]; omega), heq]

/-- Overwriting one entry of a list whose entries all satisfy `P` keeps at
least `length - 1` entries satisfying `P`. -/
theorem countP_set_all {P : Rat → Bool} (l : List Rat) :
    ∀ i : Nat, i < l.length → (∀ x ∈ l, P x = true) → ∀ v : Rat,
      l.length - 1 ≤ List.countP P (l.set i v) := by
  induction l with
  | nil => intro i hi; simp at hi
  | cons a t ih =>
    intro i hi hall v
    cases i with
    | zero =>
      rw [List.set_cons_zero, List.countP_cons]
      have hct : List.countP P t = t.length := by
        rw [List.countP_eq_length]
        exact fun x hx => hall x (List.mem_cons_of_mem a hx)
      simp only [List.length_cons, hct]
      split <;> omega
    | succ i2 =>
      have hi2 : i2 < t.length := by simpa using hi
      rw [List.set_cons_succ, List.countP_cons,
        hall a (List.mem_cons_self a t), if_pos rfl]
      have := ih i2 hi2 (fun x hx => hall x (List.mem_cons_of_mem a hx)) v
      simp only [List.length_cons]
      omega

/-- A single row's count is bounded by the flattened count. -/
theorem countP_le_flatten {P : Rat → Bool} {rows : List (List Rat)} {q : Nat}
    (hq : q < rows.length) :
    List.countP P (rows.getD q []) ≤ List.countP P rows.flatten := by
  rw [List.countP_flatten]
  have hmem : List.countP P (rows.getD q []) ∈ rows.map (List.countP P) := by
    rw [List.getD_eq_getElem _ _ hq]
    exact List.mem_map_of_mem _ (List.getElem_mem hq)
  exact List.single_le_sum (fun x _ => Nat.zero_le x) _ hmem

/-- A value that sits in a row all of whose other entries strictly exceed
it cannot be selected by `topk` when the selection is smaller than the
row. -/
theorem no_topk_of_row {flat : List Rat} {k : Nat} {p : Rat × Nat}
    (hp : p ∈ topk flat k) (L : List Rat) (e : Nat)
    (he : e < L.length) (hall : ∀ x ∈ L, p.1 < x)
    (hcount : List.countP (fun x => decide (p.1 < x)) (L.set e p.1) ≤
      List.countP (fun x => decide (p.1 < x)) flat)
    (hk : k ≤ L.length - 1) : False := by
  have h1 := countP_set_all L e he (fun x hx => decide_eq_true (hall x hx)) p.1
  have h2 := topk_countP_lt hp
  omega

/-- With n-gram blocking disabled and no dead slot, the slot loop of
`advance` leaves the score matrix untouched. -/
theorem foldl_slot_mask_id (b : Beam) (prev : List Nat)
    (hbng : b.block_ngram = 0) :
    ∀ (idxs : List Nat), (∀ i ∈ idxs, prev.getD i 0 ≠ b.eos) →
      ∀ base, idxs.foldl (b.slot_mask prev) base = base := by
  intro idxs
  induction idxs with
  | nil => intro _ base; rfl
  | cons i rest ih =>
    intro hni base
    rw [List.foldl_cons]
    have h1 : b.block_mask base i = base := by
      unfold Beam.block_mask
      rw [if_neg]
      intro hc
      rw [hbng] at hc
      exact absurd hc.1 (lt_irrefl 0)
    have h2 : b.dead_mask prev base i = base := by
      unfold Beam.dead_mask
      rw [if_neg (hni i (List.mem_cons_self i rest))]
    have hstep : b.slot_mask prev base i = base := by
      unfold Beam.slot_mask
      rw [h1, h2]
    rw [hstep]
    exact ih (fun i2 h2m => hni i2 (List.mem_cons_of_mem i h2m)) base

/-- Length of the committed token row under the shape contract. -/
theorem tok_ids_length {bw voc : Nat} {b : Beam} {m : List (List Rat)}
    (hwf : WF bw voc b) (hbw1 : 1 ≤ bw) (hbwv : bw ≤ voc)
    (hm : m.length = bw) (hrows : ∀ row ∈ m, row.length = voc) :
    (b.tok_ids m).length = bw := by
  unfold Beam.tok_ids
  rw [List.length_map, List.length_map,
    best_pairs_length hwf hbw1 hbwv hm hrows]

/-- Invariant of the length floor: no committed output row at a timestep
up to `min_length` carries the end token in any of the first `bw` slots. -/
def NoEarlyEos (bw : Nat) (b : Beam) : Prop :=
  ∀ t j, t < b.outputs.length → t ≤ b.min_length → j < bw →
    idx2 b.outputs t j 0 ≠ b.eos

/-- A fresh beam satisfies the length-floor invariant when `bos ≠ eos`. -/
theorem NoEarlyEos_init (bw ml pad bos eos mnb bng : Nat)
    (hbos : bos ≠ eos) :
    NoEarlyEos bw (Beam.init bw ml pad bos eos mnb bng) := by
  intro t j ht htm hj hc
  have ht0 : t = 0 := by
    simp [Beam.init] at ht
    omega
  subst ht0
  unfold idx2 at hc
  simp only [Beam.init] at hc
  rw [show (([List.replicate bw bos] : List (List Nat)).getD 0 [])
      = List.replicate bw bos from rfl] at hc
  rw [List.getD_eq_getElem _ _ (by rw [List.length_replicate]; exact hj)] at hc
  simp at hc
  exact hbos hc

/-- Step preservation of the length floor: with blocking disabled, a
strictly wider vocabulary, a valid `eos` column, and inputs strictly above
the sentinel, `advance` never selects the end token while the masking
branch is active. -/
theorem NoEarlyEos_advance {bw voc : Nat} {b : Beam} {m : List (List Rat)}
    (hwf : WF bw voc b) (hnee : NoEarlyEos bw b)
    (hbw1 : 1 ≤ bw) (hbwv : bw < voc) (heos : b.eos < voc)
    (hbng : b.block_ngram = 0)
    (hm : m.length = bw) (hrows : ∀ row ∈ m, row.length = voc)
    (hfin : ∀ row ∈ m, ∀ x ∈ row, -NEAR_INF < x) :
    NoEarlyEos bw (b.advance m) := by
  have hvoc : (m.headD []).length = voc := headD_length_of_rows hm hrows hbw1
  have houtne : 1 ≤ b.outputs.length := by have := hwf.bk_out; omega
  intro t j ht htm hj
  rw [show (b.advance m).outputs = b.outputs ++ [b.tok_ids m] from rfl] at ht
  rw [show (b.advance m).min_length = b.min_length from rfl] at htm
  simp only [List.length_append, List.length_cons, List.length_nil] at ht
  rw [show (b.advance m).eos = b.eos from rfl,
    show (b.advance m).outputs = b.outputs ++ [b.tok_ids m] from rfl]
  by_cases hlt : t < b.outputs.length
  · have hsame : idx2 (b.outputs ++ [b.tok_ids m]) t j 0
        = idx2 b.outputs t j 0 := by
      unfold idx2
      rw [List.getD_append _ _ _ _ hlt]
    rw [hsame]
    exact hnee t j hlt htm hj
  · have hteq : t = b.outputs.length := by omega
    have hidx : idx2 (b.outputs ++ [b.tok_ids m]) t j 0
        = (b.tok_ids m).getD j 0 := by
      unfold idx2
      rw [hteq, List.getD_append_right _ _ _ _ (le_refl _), Nat.sub_self]
      rfl
    rw [hidx]
    intro hc
    -- the selected pair at slot j
    have hjb : j < (b.best_pairs m).length := by
      rw [best_pairs_length hwf hbw1 (le_of_lt hbwv) hm hrows]
      exact hj
    have hc2 : ((b.best_pairs m)[j]).2 % voc = b.eos := by
      unfold Beam.tok_ids at hc
      rw [List.getD_eq_getElem _ _ (by
        simp only [List.length_map]; exact hjb)] at hc
      simp only [List.getElem_map] at hc
      rw [← hvoc]
      exact hc
    set p := (b.best_pairs m)[j] with hpdef
    have hpmem : p ∈ topk (b.flat_scores m) b.beam_size := by
      have := List.getElem_mem hjb
      rw [← hpdef] at this
      exact this
    obtain ⟨hp2lt, hp2val⟩ := topk_mem hpmem
    -- the masking branch is active at this step
    have hmask : (b.all_scores.length : Int) - 1 < (b.min_length : Int) := by
      have h1 : b.all_scores.length = b.outputs.length := hwf.as_out
      omega
    have hmasked : b.masked_input m
        = m.map (fun row => row.set b.eos (-NEAR_INF)) := by
      unfold Beam.masked_input
      rw [if_pos hmask]
    have hsne : b.scores ≠ [] := by
      intro hnil
      have := hwf.sc_len
      rw [hnil] at this
      simp at this
      omega
    have hbwk : b.beam_size = bw := hwf.bs_eq
    by_cases hbk : b.bookkeep.isEmpty
    · -- first step: flat is the masked row of slot 0
      cases m with
      | nil => simp at hm; omega
      | cons r rest =>
        have hr : r.length = voc := hrows r (List.mem_cons_self r rest)
        have hflat : b.flat_scores (r :: rest)
            = r.set b.eos (-NEAR_INF) := by
          unfold Beam.flat_scores
          rw [if_pos hbk, hmasked]
          rfl
        have hflatlen : (b.flat_scores (r :: rest)).length = voc := by
          rw [hflat, List.length_set, hr]
        have hp2voc : p.2 < voc := by
          rw [← hflatlen]
          exact hp2lt
        have hpeq : p.2 = b.eos := by
          rw [← hc2, Nat.mod_eq_of_lt hp2voc]
        have hpval : p.1 = -NEAR_INF := by
          rw [← hp2val, hflat, hpeq,
            List.getD_eq_getElem _ _ (by rw [List.length_set, hr]; exact heos)]
          exact List.getElem_set_self _
        apply no_topk_of_row hpmem r b.eos (by omega)
        · intro x hx
          rw [hpval]
          exact hfin r (List.mem_cons_self r rest) x hx
        · rw [hpval, hflat]
        · rw [hbwk, hr]
          omega
    · -- later step: flat is the flattened, untouched beam-score matrix
      have hprev : b.outputs.getLastD []
          = b.outputs.getD (b.outputs.length - 1) [] :=
        getLastD_eq_getD _ _
      have hprevmem : b.outputs.getD (b.outputs.length - 1) [] ∈ b.outputs := by
        rw [List.getD_eq_getElem _ _ (by omega)]
        exact List.getElem_mem _
      have hprevlen : (b.outputs.getLastD []).length = bw := by
        rw [hprev]
        exact hwf.out_w _ hprevmem
      have hnodead : ∀ i ∈ List.range (b.outputs.getLastD []).length,
          (b.outputs.getLastD []).getD i 0 ≠ b.eos := by
        intro i hi
        rw [hprev]
        have hib : i < bw := by
          rw [← hprevlen]
          exact List.mem_range.mp hi
        have hts : b.outputs.length - 1 < b.outputs.length := by omega
        have htsm : b.outputs.length - 1 ≤ b.min_length := by omega
        exact hnee (b.outputs.length - 1) i hts htsm hib
      have hrowseq : b.beam_scores_rows m
          = List.zipWith (fun row s => row.map (fun x => x + s))
            (b.masked_input m) b.scores := by
        unfold Beam.beam_scores_rows
        exact foldl_slot_mask_id b _ hbng _ hnodead _
      have hflat : b.flat_scores m = (b.beam_scores_rows m).flatten := by
        unfold Beam.flat_scores
        rw [if_neg hbk]
      have hshape := beam_scores_rows_shape b m voc hrows
        (by rw [hm, hwf.sc_len]) 
      have hflatlen : (b.flat_scores m).length = bw * voc := by
        rw [hflat, flatten_length_uniform hshape.2, hshape.1, hwf.sc_len]
      have hvocpos : 0 < voc := by omega
      have hp2bwvoc : p.2 < bw * voc := by
        rw [← hflatlen]
        exact hp2lt
      set q := p.2 / voc with hqdef
      have hq : q < bw := by
        rw [hqdef, Nat.div_lt_iff_lt_mul hvocpos]
        omega
      have hdecomp : q * voc + b.eos = p.2 := by
        rw [← hc2, hqdef, Nat.mul_comm]
        exact Nat.div_add_mod p.2 voc
      have hqrows : q < (b.beam_scores_rows m).length := by
        rw [hshape.1, hwf.sc_len]
        exact hq
      have hrowval : (b.flat_scores m).getD p.2 0
          = ((b.beam_scores_rows m).getD q []).getD b.eos 0 := by
        rw [hflat, ← hdecomp]
        exact flatten_getD_uniform hshape.2 q b.eos hqrows heos
      -- identify row q
      have hqbase : q < (List.zipWith (fun row s => row.map (fun x => x + s))
          (b.masked_input m) b.scores).length := by
        rw [List.length_zipWith, masked_input_length, hm, hwf.sc_len,
          Nat.min_self]
        exact hq
      have hqm : q < m.length := by omega
      have hqmask : q < (b.masked_input m).length := by
        rw [masked_input_length]
        exact hqm
      have hrowq : (b.beam_scores_rows m).getD q []
          = ((m[q].set b.eos (-NEAR_INF)).map
              (fun x => x + b.scores.getD q 0)) := by
        rw [hrowseq, List.getD_eq_getElem _ _ hqbase, List.getElem_zipWith]
        have hsq : q < b.scores.length := by rw [hwf.sc_len]; exact hq
        rw [← List.getD_eq_getElem b.scores 0 hsq]
        congr 1
        have h1 : (b.masked_input m)[q]? = some (m[q].set b.eos (-NEAR_INF)) := by
          rw [hmasked,
            List.getElem?_eq_getElem (by rw [List.length_map]; exact hqm),
            List.getElem_map]
        rw [List.getElem?_eq_getElem hqmask] at h1
        exact Option.some_injective _ h1
      have hmqlen : m[q].length = voc := hrows _ (List.getElem_mem hqm)
      -- the value selected is the masked eos entry of row q
      have hpval : p.1 = -NEAR_INF + b.scores.getD q 0 := by
        rw [← hp2val, hrowval, hrowq,
          List.getD_eq_getElem _ _ (by
            rw [List.length_map, List.length_set, hmqlen]; exact heos)]
        rw [List.getElem_map]
        have hein : b.eos < (m[q].set b.eos (-NEAR_INF)).length := by
          rw [List.length_set, hmqlen]
          exact heos
        rw [List.getElem_set_self hein]
      -- contradiction via the row count
      apply no_topk_of_row hpmem (m[q].map (fun x => x + b.scores.getD q 0))
        b.eos (by rw [List.length_map, hmqlen]; exact heos)
      · intro x hx
        obtain ⟨y, hy, rfl⟩ := List.mem_map.mp hx
        rw [hpval]
        exact add_lt_add_right (hfin _ (List.getElem_mem hqm) y hy) _
      · rw [hpval]
        have hsetmap : (m[q].map (fun x => x + b.scores.getD q 0)).set b.eos
            (-NEAR_INF + b.scores.getD q 0)
            = (m[q].set b.eos (-NEAR_INF)).map
              (fun x => x + b.scores.getD q 0) := by
          rw [List.map_set]
        rw [hsetmap, ← hrowq, hflat]
        exact countP_le_flatten hqrows
      · rw [hbwk, List.length_map, hmqlen]
        omega

/-- The configuration fields of a beam never change across a decode. -/
theorem fields_advanceAll : ∀ (ms : List (List (List Rat))) (b : Beam),
    (b.advanceAll ms).eos = b.eos ∧ (b.advanceAll ms).bos = b.bos ∧
    (b.advanceAll ms).min_length = b.min_length ∧
    (b.advanceAll ms).beam_size = b.beam_size ∧
    (b.advanceAll ms).min_n_best = b.min_n_best ∧
    (b.advanceAll ms).block_ngram = b.block_ngram := by
  intro ms
  induction ms with
  | nil => exact fun b => ⟨rfl, rfl, rfl, rfl, rfl, rfl⟩
  | cons m rest ih =>
    intro b
    rw [advanceAll_cons]
    exact ih (b.advance m)

/-- The length floor invariant is preserved along a conformant decode with
finite scores, blocking disabled, and a strictly wider vocabulary. -/
theorem NoEarlyEos_advanceAll {bw voc : Nat} (hbw1 : 1 ≤ bw)
    (hbwv : bw < voc) :
    ∀ (ms : List (List (List Rat))) (b : Beam), WF bw voc b →
      NoEarlyEos bw b → b.eos < voc → b.block_ngram = 0 →
      Conformant bw voc ms → FiniteScores ms →
      NoEarlyEos bw (b.advanceAll ms) := by
  intro ms
  induction ms with
  | nil => exact fun b _ h _ _ _ _ => h
  | cons m rest ih =>
    intro b hwf hnee heos hbng hconf hfs
    rw [advanceAll_cons]
    have hme := hconf m (List.mem_cons_self m rest)
    exact ih (b.advance m)
      (WF_advance hwf hbw1 (le_of_lt hbwv) hme.1 hme.2)
      (NoEarlyEos_advance hwf hnee hbw1 hbwv heos hbng hme.1 hme.2
        (hfs m (List.mem_cons_self m rest)))
      heos hbng
      (fun m2 h2 => hconf m2 (List.mem_cons_of_mem m h2))
      (fun m2 h2 => hfs m2 (List.mem_cons_of_mem m h2))

/-- The finished counter tracks the size of the finished list across a
decode. -/
theorem counter_eq_advanceAll : ∀ (ms : List (List (List Rat))) (b : Beam),
    b.n_best_counter = b.finished.length →
    (b.advanceAll ms).n_best_counter = (b.advanceAll ms).finished.length := by
  intro ms
  induction ms with
  | nil => exact fun b h => h
  | cons m rest ih =>
    intro b hb
    rw [advanceAll_cons]
    apply ih
    show b.n_best_counter + (b.new_tails m).length
        = (b.finished ++ b.new_tails m).length
    rw [List.length_append, hb]

/-- Once the top slot has emitted `eos`, the finished list is nonempty
(the same advance that latches `eos_top` also records slot 0). -/
theorem eos_top_finished_advanceAll :
    ∀ (ms : List (List (List Rat))) (b : Beam), 1 ≤ b.beam_size →
      (b.eos_top = true → b.finished ≠ []) →
      ((b.advanceAll ms).eos_top = true → (b.advanceAll ms).finished ≠ []) := by
  intro ms
  induction ms with
  | nil => exact fun b _ h => h
  | cons m rest ih =>
    intro b hbw hb
    rw [advanceAll_cons]
    apply ih (b.advance m) hbw
    intro htop
    show b.finished ++ b.new_tails m ≠ []
    have htop2 : b.eos_top = true ∨ (b.tok_ids m).getD 0 0 = b.eos := by
      have : (b.eos_top || decide ((b.tok_ids m).getD 0 0 = b.eos)) = true :=
        htop
      rcases Bool.or_eq_true_iff.mp this with h | h
      · exact Or.inl h
      · exact Or.inr (of_decide_eq_true h)
    rcases htop2 with h | h
    · have := hb h
      intro hcontra
      rcases List.append_eq_nil.mp hcontra with ⟨h1, _⟩
      exact this h1
    · have hmem : (⟨(b.outputs ++ [b.tok_ids m]).length - 1, 0,
          (b.new_scores m).getD 0 0, b.eos⟩ : HypothesisTail)
          ∈ b.new_tails m := by
        unfold Beam.new_tails
        apply List.mem_filterMap.mpr
        exact ⟨0, List.mem_range.mpr (by omega), by rw [if_pos h]⟩
      intro hcontra
      rcases List.append_eq_nil.mp hcontra with ⟨_, h2⟩
      rw [h2] at hmem
      simp at hmem

instance : IsTotal HypothesisTail rescore_rel :=
  ⟨fun a b => le_total b.score a.score⟩

instance : IsTrans HypothesisTail rescore_rel :=
  ⟨fun _ _ _ hab hbc => le_trans hbc hab⟩

/-- C9: across every single `advance` call, the count of recorded finished
hypotheses never decreases (the completion loop only appends). -/
theorem c9_finished_monotone (b : Beam) (m : List (List Rat)) :
    b.finished.length ≤ (b.advance m).finished.length := by
  show b.finished.length ≤ (b.finished ++ b.new_tails m).length
  rw [List.length_append]
  omega

/-- C5: for every length-penalty map `lp` (the source uses the Google-NMT
penalty `((1 + (timestep + 1)) / 6) ** 0.65`), `get_rescored_finished`
returns one record per finished hypothesis with its score divided by
`lp (timestep + 1)`, ordered descending by rescored score, and truncated to
the first `n_best` records when `n_best` is given. -/
theorem c5_rescored_finished (b : Beam) (lp : Nat → Rat) (k : Nat) :
    (b.get_rescored_finished lp none).Perm
        (b.finished.map (rescoreTail lp)) ∧
      List.Sorted rescore_rel (b.get_rescored_finished lp none) ∧
      b.get_rescored_finished lp (some k)
        = (b.get_rescored_finished lp none).take k ∧
      (b.get_rescored_finished lp (some k)).length
        = min k b.finished.length := by
  refine ⟨List.perm_insertionSort rescore_rel _,
    List.sorted_insertionSort rescore_rel _, rfl, ?_⟩
  show (((b.finished.map (rescoreTail lp)).insertionSort
      rescore_rel).take k).length = min k b.finished.length
  rw [List.length_take, List.length_insertionSort, List.length_map]

/-- C4: on every state reached by a decode from a fresh beam, optionally
closed off by `check_finished`, `done()` is true exactly when the top slot
has emitted the end token at least once and at least `min_n_best` finished
hypotheses are recorded. -/
theorem c4_done_iff (bw ml pad bos eos mnb bng : Nat) (hbw : 1 ≤ bw)
    (ms : List (List (List Rat))) :
    (((Beam.init bw ml pad bos eos mnb bng).advanceAll ms).done = true ↔
      ((Beam.init bw ml pad bos eos mnb bng).advanceAll ms).eos_top = true ∧
        ((Beam.init bw ml pad bos eos mnb bng).advanceAll ms).min_n_best ≤
          ((Beam.init bw ml pad bos eos mnb
            bng).advanceAll ms).finished.length) ∧
    ((((Beam.init bw ml pad bos eos mnb
          bng).advanceAll ms).check_finished).done = true ↔
      (((Beam.init bw ml pad bos eos mnb
          bng).advanceAll ms).check_finished).eos_top = true ∧
        (((Beam.init bw ml pad bos eos mnb
            bng).advanceAll ms).check_finished).min_n_best ≤
          (((Beam.init bw ml pad bos eos mnb
            bng).advanceAll ms).check_finished).finished.length) := by
  set s := (Beam.init bw ml pad bos eos mnb bng).advanceAll ms with hs
  have hcounter : s.n_best_counter = s.finished.length :=
    counter_eq_advanceAll ms _ rfl
  have htop : s.eos_top = true → s.finished ≠ [] := by
    apply eos_top_finished_advanceAll ms _ ?_ ?_
    · show 1 ≤ bw
      exact hbw
    · intro h
      exact absurd h (by simp [Beam.init])
  have hmain : s.done = true ↔
      (s.eos_top = true ∧ s.min_n_best ≤ s.finished.length) := by
    rw [show s.done = (s.eos_top && decide (s.min_n_best ≤ s.n_best_counter))
      from rfl, hcounter]
    simp
  refine ⟨hmain, ?_⟩
  by_cases hfe : s.finished.length = 0
  · have htopf : s.eos_top = false := by
      cases h : s.eos_top
      · rfl
      · exact absurd (List.length_eq_zero.mp hfe) (htop h)
    have hcfeq : s.check_finished.done
        = (s.eos_top && decide (s.min_n_best ≤ s.n_best_counter)) := by
      unfold Beam.check_finished
      rw [if_pos hfe]
      rfl
    have hcftop : s.check_finished.eos_top = s.eos_top := by
      unfold Beam.check_finished
      rw [if_pos hfe]
    rw [hcfeq, hcftop, htopf]
    simp
  · have hcfid : s.check_finished = s := by
      unfold Beam.check_finished
      rw [if_neg hfe]
    rw [hcfid]
    exact hmain

/-- Each `advance` appends exactly one row to each trellis field. -/
theorem counts_advanceAll : ∀ (ms : List (List (List Rat))) (b : Beam),
    (b.advanceAll ms).all_scores.length = b.all_scores.length + ms.length ∧
    (b.advanceAll ms).outputs.length = b.outputs.length + ms.length ∧
    (b.advanceAll ms).bookkeep.length = b.bookkeep.length + ms.length := by
  intro ms
  induction ms with
  | nil => exact fun b => ⟨by simp [advanceAll_nil], by simp [advanceAll_nil],
      by simp [advanceAll_nil]⟩
  | cons m rest ih =>
    intro b
    rw [advanceAll_cons]
    obtain ⟨h1, h2, h3⟩ := ih (b.advance m)
    have ha1 : (b.advance m).all_scores.length = b.all_scores.length + 1 := by
      show (b.all_scores ++ [b.new_scores m]).length = _
      rw [List.length_append, List.length_cons, List.length_nil]
    have ha2 : (b.advance m).outputs.length = b.outputs.length + 1 := by
      show (b.outputs ++ [b.tok_ids m]).length = _
      rw [List.length_append, List.length_cons, List.length_nil]
    have ha3 : (b.advance m).bookkeep.length = b.bookkeep.length + 1 := by
      show (b.bookkeep ++ [b.hyp_ids m]).length = _
      rw [List.length_append, List.length_cons, List.length_nil]
    refine ⟨?_, ?_, ?_⟩
    · rw [h1, ha1, List.length_cons]; omega
    · rw [h2, ha2, List.length_cons]; omega
    · rw [h3, ha3, List.length_cons]; omega

/-- C7: after `N` conformant `advance` calls on a fresh beam, `step_scores`
(`all_scores`) and `step_tokens` (`outputs`) hold `N + 1` rows and the
backpointers (`bookkeep`) hold `N` rows, every row of width
`beam_width`. -/
theorem c7_shape_invariant (bw voc ml pad bos eos mnb bng : Nat)
    (ms : List (List (List Rat))) (hbw1 : 1 ≤ bw) (hbwv : bw ≤ voc)
    (hconf : Conformant bw voc ms) :
    ((Beam.init bw ml pad bos eos mnb
        bng).advanceAll ms).all_scores.length = ms.length + 1 ∧
      ((Beam.init bw ml pad bos eos mnb
        bng).advanceAll ms).outputs.length = ms.length + 1 ∧
      ((Beam.init bw ml pad bos eos mnb
        bng).advanceAll ms).bookkeep.length = ms.length ∧
      (∀ v ∈ ((Beam.init bw ml pad bos eos mnb
        bng).advanceAll ms).all_scores, v.length = bw) ∧
      (∀ v ∈ ((Beam.init bw ml pad bos eos mnb
        bng).advanceAll ms).outputs, v.length = bw) ∧
      (∀ v ∈ ((Beam.init bw ml pad bos eos mnb
        bng).advanceAll ms).bookkeep, v.length = bw) := by
  obtain ⟨h1, h2, h3⟩ := counts_advanceAll ms (Beam.init bw ml pad bos eos mnb bng)
  have hwf := WF_advanceAll hbw1 hbwv ms (Beam.init bw ml pad bos eos mnb bng)
    (WF_init bw voc ml pad bos eos mnb bng) hconf
  refine ⟨?_, ?_, ?_, hwf.as_w, hwf.out_w, hwf.bk_w⟩
  · rw [h1]; simp [Beam.init]; omega
  · rw [h2]; simp [Beam.init]; omega
  · rw [h3]; simp [Beam.init]

/-- C2 (amended): for every finished tail of a conformant decode,
`get_hyp_from_finished` returns `tail.timestep + 1` records ordered with
`tail.timestep` first and timestep 0 last — the reverse of the claimed
order — whose FIRST element carries the end token, whose LAST element
carries the start token, and whose record at position `j` quotes the
`step_scores` entry of its own cell `(timestep - j, slot)`. -/
theorem c2_replay_reversed (bw voc ml pad bos eos mnb bng : Nat)
    (ms : List (List (List Rat))) (s : Beam)
    (hs : s = (Beam.init bw ml pad bos eos mnb bng).advanceAll ms)
    (hbw1 : 1 ≤ bw) (hbwv : bw ≤ voc) (hconf : Conformant bw voc ms)
    (tail : HypothesisTail) (htail : tail ∈ s.finished) :
    (s.get_hyp_from_finished tail).length = tail.timestep + 1 ∧
    (s.get_hyp_from_finished tail).headD ⟨0, 0, 0, 0⟩ =
      ⟨tail.timestep, tail.hypid,
        idx2 s.all_scores tail.timestep tail.hypid 0, s.eos⟩ ∧
    (∀ j, j ≤ tail.timestep → ∃ h2, h2 < bw ∧
      (s.get_hyp_from_finished tail).getD j ⟨0, 0, 0, 0⟩ =
        ⟨tail.timestep - j, h2, idx2 s.all_scores (tail.timestep - j) h2 0,
          idx2 s.outputs (tail.timestep - j) h2 0⟩) ∧
    (∃ h0, h0 < bw ∧ (s.get_hyp_from_finished tail).getLastD ⟨0, 0, 0, 0⟩ =
      ⟨0, h0, idx2 s.all_scores 0 h0 0, s.bos⟩) := by
  have hwf : WF bw voc s := by
    rw [hs]
    exact WF_advanceAll hbw1 hbwv ms _
      (WF_init bw voc ml pad bos eos mnb bng) hconf
  obtain ⟨hts1, htslt, hhid, hcell, htok⟩ := hwf.fin tail htail
  obtain ⟨hlen, hhead, hget, hlast⟩ :=
    replayFrom_spec hwf tail.timestep tail.hypid htslt hhid
  refine ⟨hlen, ?_, hget, hlast⟩
  show (s.replayFrom tail.timestep tail.hypid).headD ⟨0, 0, 0, 0⟩ = _
  rw [hhead, hcell]

/-- Reading a written row through `getD` at the written column. -/
theorem getD_set_self_val {l : List Rat} {i : Nat} (h : i < l.length)
    (v : Rat) : (l.set i v).getD i 0 = v := by
  rw [List.getD_eq_getElem?_getD, List.getElem?_set_self h]
  rfl

/-- Reading a written row through `getD` at any other column. -/
theorem getD_set_ne_val {l : List Rat} {i jj : Nat} (h : i ≠ jj) (v : Rat) :
    (l.set i v).getD jj 0 = l.getD jj 0 := by
  rw [List.getD_eq_getElem?_getD, List.getElem?_set_ne h,
    ← List.getD_eq_getElem?_getD]

/-- Reading a mapped matrix row through `getD` inside its length. -/
theorem getD_map_row {m : List (List Rat)} {f : List Rat → List Rat}
    {i : Nat} (h : i < m.length) :
    (m.map f).getD i [] = f (m.getD i []) := by
  rw [List.getD_eq_getElem _ _ (by rw [List.length_map]; exact h),
    List.getElem_map, List.getD_eq_getElem _ _ h]

/-- C10 (amended): `advance` mutates its input in place exactly as follows.
When the number of completed steps is below `min_length`, the `eos` column
of every row of the caller-supplied matrix is overwritten with the
`-NEAR_INF` sentinel and every other entry is left unchanged — so the
matrix afterwards differs whenever some row's `eos` entry was not already
the sentinel (but not otherwise); when the completed steps have reached
`min_length`, the matrix is untouched. -/
theorem c10_masked_input (b : Beam) (m : List (List Rat)) :
    (((b.all_scores.length : Int) - 1 < (b.min_length : Int)) →
      (∀ i jj, i < m.length → jj ≠ b.eos →
        idx2 (b.masked_input m) i jj 0 = idx2 m i jj 0) ∧
      (∀ i, i < m.length → b.eos < (m.getD i []).length →
        idx2 (b.masked_input m) i b.eos 0 = -NEAR_INF) ∧
      ((∃ i, i < m.length ∧ b.eos < (m.getD i []).length ∧
          idx2 m i b.eos 0 ≠ -NEAR_INF) → b.masked_input m ≠ m)) ∧
    (¬((b.all_scores.length : Int) - 1 < (b.min_length : Int)) →
      b.masked_input m = m) := by
  constructor
  · intro hcond
    have hmeq : b.masked_input m
        = m.map (fun row => row.set b.eos (-NEAR_INF)) := by
      unfold Beam.masked_input
      rw [if_pos hcond]
    have heosv : ∀ i, i < m.length → b.eos < (m.getD i []).length →
        idx2 (b.masked_input m) i b.eos 0 = -NEAR_INF := by
      intro i hi hrl
      unfold idx2
      rw [hmeq, getD_map_row hi, getD_set_self_val hrl]
    refine ⟨?_, heosv, ?_⟩
    · intro i jj hi hjj
      unfold idx2
      rw [hmeq, getD_map_row hi, getD_set_ne_val (fun h => hjj h.symm)]
    · rintro ⟨i, hi, hrl, hneq⟩ hcontra
      apply hneq
      rw [← heosv i hi hrl, hcontra]
  · intro hcond
    unfold Beam.masked_input
    rw [if_neg hcond]

/-- C3 (amended): with n-gram blocking disabled, a beam strictly narrower
than the vocabulary, a valid end-token column, distinct start and end
tokens, and all supplied scores strictly above `-NEAR_INF`, no output slot
of a conformant decode with `min_length = k` carries the end token at a
timestep `< k` — the end-token scores of every slot are forced to the
sentinel while below the floor, and under these provisos the masked entries
can never win the top-k selection. -/
theorem c3_length_floor (bw voc ml pad bos eos mnb : Nat)
    (ms : List (List (List Rat))) (s : Beam)
    (hs : s = (Beam.init bw ml pad bos eos mnb 0).advanceAll ms)
    (hbw1 : 1 ≤ bw) (hbwv : bw < voc) (heos : eos < voc) (hbos : bos ≠ eos)
    (hconf : Conformant bw voc ms) (hfs : FiniteScores ms) :
    ∀ t j, t < s.outputs.length → t < ml → j < bw →
      idx2 s.outputs t j 0 ≠ eos := by
  have hnee : NoEarlyEos bw s := by
    rw [hs]
    exact NoEarlyEos_advanceAll hbw1 hbwv ms _
      (WF_init bw voc ml pad bos eos mnb 0)
      (NoEarlyEos_init bw ml pad bos eos mnb 0 hbos)
      heos rfl hconf hfs
  obtain ⟨hfe, _, hfml, _, _, _⟩ :=
    fields_advanceAll ms (Beam.init bw ml pad bos eos mnb 0)
  intro t j ht htm hj
  have hml : s.min_length = ml := by rw [hs]; exact hfml
  have heq : s.eos = eos := by rw [hs]; exact hfe
  have := hnee t j ht (by rw [hml]; omega) hj
  rw [heq] at this
  exact this

/-- Reading a written list at the written index, for any element type. -/
theorem getD_set_self_gen {α : Type} {l : List α} {i : Nat}
    (h : i < l.length) (v d : α) : (l.set i v).getD i d = v := by
  rw [List.getD_eq_getElem?_getD, List.getElem?_set_self h]
  rfl

/-- C1 (evaluation of the code at the failing input): with
`block_ngram = 1`, a decode whose distributions favour token 3, token 3,
then `eos` records the finished hypothesis `bos, 3, 3, eos`, in which token
3 occurs twice; the code's n-gram collection for `block_ngram = 1` gathers
n-grams only for `n ∈ range(1) = {0}` and so reports no repeat for the
hypothesis-so-far `[3, 3]`, although its 1-grams (the `n` from 1 to
`ngram_block_size` of the claim) do repeat — with `block_ngram = 2` the
same test does fire. -/
theorem c1_block_ngram_noop :
    exRunBlock.finished = [⟨3, 0, 0, 2⟩] ∧
    (exRunBlock.get_hyp_from_finished ⟨3, 0, 0, 2⟩).map
        HypothesisTail.tokenid = [2, 3, 3, 1] ∧
    ((exRunBlock.get_hyp_from_finished ⟨3, 0, 0, 2⟩).map
        HypothesisTail.tokenid).count 3 = 2 ∧
    Beam.ngram_repeats 1 [3, 3] = false ∧
    Beam.find_ngrams [3, 3] 1 = [[3], [3]] ∧
    Beam.ngram_repeats 2 [3, 3] = true := by
  have hmap : (exRunBlock.get_hyp_from_finished ⟨3, 0, 0, 2⟩).map
      HypothesisTail.tokenid = [2, 3, 3, 1] := by
    norm_num [exRunBlock, Beam.advanceAll, Beam.advance, Beam.flat_scores,
      Beam.masked_input, Beam.beam_scores_rows, Beam.slot_mask,
      Beam.block_mask, Beam.dead_mask, Beam.best_pairs, Beam.new_scores,
      Beam.tok_ids, Beam.hyp_ids, Beam.new_tails, Beam.init, topk, topk_rel,
      List.insertionSort, List.orderedInsert, List.enum, List.enumFrom, idx2,
      Beam.get_hyp_from_finished, Beam.get_partial_hyp_from_tail,
      Beam.current_hypo, Beam.ngram_repeats, Beam.find_ngrams,
      Beam.replayFrom, List.filterMap, List.range_succ, List.flatten]
  refine ⟨?_, hmap, ?_, by decide, by decide, by decide⟩
  · norm_num [exRunBlock, Beam.advanceAll, Beam.advance, Beam.flat_scores,
      Beam.masked_input, Beam.beam_scores_rows, Beam.slot_mask,
      Beam.block_mask, Beam.dead_mask, Beam.best_pairs, Beam.new_scores,
      Beam.tok_ids, Beam.hyp_ids, Beam.new_tails, Beam.init, topk, topk_rel,
      List.insertionSort, List.orderedInsert, List.enum, List.enumFrom, idx2,
      Beam.get_hyp_from_finished, Beam.get_partial_hyp_from_tail,
      Beam.current_hypo, Beam.ngram_repeats, Beam.find_ngrams,
      Beam.replayFrom, List.filterMap, List.range_succ, List.flatten]
  · rw [hmap]
    decide

/-- C6: a beam width ≤ 0 is rejected with no surviving state: a negative
width fails in the constructor (`torch.Tensor` of a negative size raises),
and width 0 fails at the first `advance` on a contract-shaped (0-row)
input, where `softmax_probs[0]` raises. -/
theorem c6_invalid_beam_width (bs : Int) (ml pad bos eos mnb bng : Nat)
    (m : List (List Rat)) (hbs : bs ≤ 0) (hm : m.length = bs.toNat) :
    Beam.initChk bs ml pad bos eos mnb bng = none ∨
    ∃ b : Beam, Beam.initChk bs ml pad bos eos mnb bng = some b ∧
      b.advanceChk m = none := by
  by_cases hneg : bs < 0
  · left
    unfold Beam.initChk
    rw [if_pos hneg]
  · right
    have hz : bs = 0 := by omega
    subst hz
    have hm0 : m = [] := List.length_eq_zero.mp (by simpa using hm)
    subst hm0
    refine ⟨Beam.init 0 ml pad bos eos mnb bng, ?_, ?_⟩
    · unfold Beam.initChk
      rw [if_neg hneg]
      rfl
    · rfl

/-- C8: calling `check_finished` on a beam with no finished hypothesis
yields exactly one finished record, at slot 0 of the final timestep, with
the trellis token at that cell forced to the end token and the step
structure otherwise unchanged. -/
theorem c8_check_finished_degenerate (b : Beam) (hfin : b.finished = [])
    (hlast : b.outputs.getLastD [] ≠ []) :
    (b.check_finished).finished =
        [⟨b.outputs.length - 1, 0, (b.all_scores.getLastD []).getD 0 0,
          b.eos⟩] ∧
      idx2 (b.check_finished).outputs
        ((b.check_finished).outputs.length - 1) 0 0 = b.eos ∧
      (b.check_finished).outputs.length = b.outputs.length := by
  have hfe : b.finished.length = 0 := by rw [hfin]; rfl
  have houtne : b.outputs ≠ [] := fun h => hlast (by rw [h]; rfl)
  have houtpos : 0 < b.outputs.length := List.length_pos.mpr houtne
  have hlastpos : 0 < (b.outputs.getLastD []).length := List.length_pos.mpr hlast
  have htokval : ((b.outputs.getLastD []).set 0 b.eos).getD 0 0 = b.eos :=
    getD_set_self_gen hlastpos b.eos 0
  have hcf : b.check_finished = { b with
      outputs := b.outputs.set (b.outputs.length - 1)
        ((b.outputs.getLastD []).set 0 b.eos),
      finished := b.finished ++ [⟨b.outputs.length - 1, 0,
        (b.all_scores.getLastD []).getD 0 0,
        ((b.outputs.getLastD []).set 0 b.eos).getD 0 0⟩] } := by
    rw [Beam.check_finished, if_pos hfe]
  refine ⟨?_, ?_, ?_⟩
  · rw [hcf]
    show b.finished ++ [⟨b.outputs.length - 1, 0,
      (b.all_scores.getLastD []).getD 0 0,
      ((b.outputs.getLastD []).set 0 b.eos).getD 0 0⟩] = _
    rw [hfin, List.nil_append, htokval]
  · rw [hcf]
    show idx2 (b.outputs.set (b.outputs.length - 1)
        ((b.outputs.getLastD []).set 0 b.eos))
      ((b.outputs.set (b.outputs.length - 1)
        ((b.outputs.getLastD []).set 0 b.eos)).length - 1) 0 0 = b.eos
    rw [List.length_set]
    unfold idx2
    have h1 : (b.outputs.set (b.outputs.length - 1)
        ((b.outputs.getLastD []).set 0 b.eos)).getD
          (b.outputs.length - 1) []
        = (b.outputs.getLastD []).set 0 b.eos := by
      rw [List.getD_eq_getElem?_getD, List.getElem?_set_self (by omega)]
      rfl
    rw [h1, htokval]
  · rw [hcf]
    show (b.outputs.set (b.outputs.length - 1)
      ((b.outputs.getLastD []).set 0 b.eos)).length = b.outputs.length
    exact List.length_set _ _ _

/-- C2 counterexample: on a concrete decode the sequence returned by
`get_hyp_from_finished` for the recorded finished tail starts at the
tail's timestep with the end token (2) and ends at timestep 0 with the
start token (1) — not timestep 0 and the start token first as claimed. -/
theorem c2_counterexample :
    ⟨1, 0, 0, 2⟩ ∈ exRun1.finished ∧
    (exRun1.get_hyp_from_finished ⟨1, 0, 0, 2⟩).map
        HypothesisTail.timestep = [1, 0] ∧
    (exRun1.get_hyp_from_finished ⟨1, 0, 0, 2⟩).map
        HypothesisTail.tokenid = [2, 1] := by
  norm_num [exRun1, Beam.advanceAll, Beam.advance, Beam.flat_scores,
    Beam.masked_input, Beam.beam_scores_rows, Beam.slot_mask, Beam.block_mask,
    Beam.dead_mask, Beam.best_pairs, Beam.new_scores, Beam.tok_ids,
    Beam.hyp_ids, Beam.new_tails, Beam.init, topk, topk_rel,
    List.insertionSort, List.orderedInsert, List.enum, List.enumFrom, idx2,
    Beam.get_hyp_from_finished, Beam.replayFrom, List.filterMap,
    List.range_succ, List.flatten]

/-- C3 counterexample: with beam width 3 equal to the vocabulary size and
`min_length = 2`, the very first `advance` must select the masked end-token
entry, so slot 2 carries the end token at timestep 1 < 2 and a finished
hypothesis at timestep 1 is recorded — the claim fails without further
provisos. -/
theorem c3_counterexample :
    idx2 exRun3.outputs 1 2 0 = 2 ∧ exRun3.min_length = 2 ∧ (1 : Nat) < 2 ∧
    exRun3.finished = [⟨1, 2, -NEAR_INF, 2⟩] := by
  norm_num [exRun3, Beam.advanceAll, Beam.advance, Beam.flat_scores,
    Beam.masked_input, Beam.beam_scores_rows, Beam.slot_mask, Beam.block_mask,
    Beam.dead_mask, Beam.best_pairs, Beam.new_scores, Beam.tok_ids,
    Beam.hyp_ids, Beam.new_tails, Beam.init, topk, topk_rel,
    List.insertionSort, List.orderedInsert, List.enum, List.enumFrom, idx2,
    List.filterMap, List.range_succ, NEAR_INF]

/-- C10 counterexample: a fresh beam with `min_length = 3` is below the
length floor, yet on an input whose `eos` column already holds the
`-NEAR_INF` sentinel the caller's matrix is identical after the call — the
claimed "the caller's matrix differs after the call" fails. -/
theorem c10_counterexample :
    ((exFresh.all_scores.length : Int) - 1 < (exFresh.min_length : Int)) ∧
    exFresh.masked_input [[0, 0, -NEAR_INF]] = [[0, 0, -NEAR_INF]] := by
  exact ⟨by decide, rfl⟩

/-- Witness for C2: the replay theorem applied to the concrete decode
`exRun1` and its recorded finished tail. -/
theorem c2_replay_reversed_witness :
    ⟨1, 0, 0, 2⟩ ∈ exRun1.finished ∧
    ((exRun1.get_hyp_from_finished ⟨1, 0, 0, 2⟩).length = 1 + 1 ∧
      (exRun1.get_hyp_from_finished ⟨1, 0, 0, 2⟩).headD ⟨0, 0, 0, 0⟩ =
        ⟨1, 0, idx2 exRun1.all_scores 1 0 0, exRun1.eos⟩ ∧
      (∀ j, j ≤ 1 → ∃ h2, h2 < 1 ∧
        (exRun1.get_hyp_from_finished ⟨1, 0, 0, 2⟩).getD j ⟨0, 0, 0, 0⟩ =
          ⟨1 - j, h2, idx2 exRun1.all_scores (1 - j) h2 0,
            idx2 exRun1.outputs (1 - j) h2 0⟩) ∧
      (∃ h0, h0 < 1 ∧
        (exRun1.get_hyp_from_finished ⟨1, 0, 0, 2⟩).getLastD ⟨0, 0, 0, 0⟩ =
          ⟨0, h0, idx2 exRun1.all_scores 0 h0 0, exRun1.bos⟩)) := by
  have hfin : exRun1.finished = [⟨1, 0, 0, 2⟩] := by
    norm_num [exRun1, Beam.advanceAll, Beam.advance, Beam.flat_scores,
      Beam.masked_input, Beam.beam_scores_rows, Beam.slot_mask,
      Beam.block_mask, Beam.dead_mask, Beam.best_pairs, Beam.new_scores,
      Beam.tok_ids, Beam.hyp_ids, Beam.new_tails, Beam.init, topk, topk_rel,
      List.insertionSort, List.orderedInsert, List.enum, List.enumFrom, idx2,
      List.filterMap, List.range_succ, List.flatten]
  have hmem : (⟨1, 0, 0, 2⟩ : HypothesisTail) ∈ exRun1.finished := by
    rw [hfin]
    exact List.mem_singleton.mpr rfl
  exact ⟨hmem, c2_replay_reversed 1 3 0 0 1 2 3 0 [[[-1, -2, 0]]] exRun1 rfl
    (by decide) (by decide) (by decide) ⟨1, 0, 0, 2⟩ hmem⟩

/-- Witness for C3: the amended length floor applied to a width-1,
vocabulary-3 beam with `min_length = 1` and no steps taken. -/
theorem c3_length_floor_witness :
    (1 ≤ 1 ∧ 1 < 3 ∧ 2 < 3 ∧ (1 : Nat) ≠ 2) ∧
    idx2 ((Beam.init 1 1 0 1 2 3 0).advanceAll []).outputs 0 0 0 ≠ 2 := by
  refine ⟨by decide, ?_⟩
  exact c3_length_floor 1 3 1 0 1 2 3 []
    ((Beam.init 1 1 0 1 2 3 0).advanceAll []) rfl (by decide) (by decide)
    (by decide) (by decide) (by decide) (by decide) 0 0 (by decide)
    (by decide) (by decide)

/-- Witness for C4: the `done` characterization applied to a width-1 beam
with no steps taken. -/
theorem c4_done_iff_witness :
    1 ≤ 1 ∧
    ((((Beam.init 1 0 0 1 2 3 0).advanceAll []).done = true ↔
      ((Beam.init 1 0 0 1 2 3 0).advanceAll []).eos_top = true ∧
        ((Beam.init 1 0 0 1 2 3 0).advanceAll []).min_n_best ≤
          ((Beam.init 1 0 0 1 2 3 0).advanceAll []).finished.length) ∧
    ((((Beam.init 1 0 0 1 2 3 0).advanceAll []).check_finished).done = true ↔
      (((Beam.init 1 0 0 1 2 3 0).advanceAll []).check_finished).eos_top
          = true ∧
        (((Beam.init 1 0 0 1 2 3 0).advanceAll
          []).check_finished).min_n_best ≤
          (((Beam.init 1 0 0 1 2 3 0).advanceAll
            []).check_finished).finished.length)) :=
  ⟨Nat.le_refl 1, c4_done_iff 1 0 0 1 2 3 0 (Nat.le_refl 1) []⟩

/-- Witness for C6: beam width 0 passes construction but the first
`advance` on the contract-shaped empty input fails. -/
theorem c6_invalid_beam_width_witness :
    ((0 : Int) ≤ 0 ∧ ([] : List (List Rat)).length = (0 : Int).toNat) ∧
    (Beam.initChk 0 3 0 1 2 3 0 = none ∨
      ∃ b : Beam, Beam.initChk 0 3 0 1 2 3 0 = some b ∧
        b.advanceChk [] = none) :=
  ⟨⟨by decide, rfl⟩, c6_invalid_beam_width 0 3 0 1 2 3 0 [] (by decide) rfl⟩

/-- Witness for C7: the shape invariant applied to one conformant step of a
width-2, vocabulary-2 beam. -/
theorem c7_shape_invariant_witness :
    (1 ≤ 2 ∧ 2 ≤ 2) ∧
    (((Beam.init 2 0 0 1 2 3 0).advanceAll
        [[[0, -1], [0, -1]]]).all_scores.length = 1 + 1 ∧
      ((Beam.init 2 0 0 1 2 3 0).advanceAll
        [[[0, -1], [0, -1]]]).outputs.length = 1 + 1 ∧
      ((Beam.init 2 0 0 1 2 3 0).advanceAll
        [[[0, -1], [0, -1]]]).bookkeep.length = 1 ∧
      (∀ v ∈ ((Beam.init 2 0 0 1 2 3 0).advanceAll
        [[[0, -1], [0, -1]]]).all_scores, v.length = 2) ∧
      (∀ v ∈ ((Beam.init 2 0 0 1 2 3 0).advanceAll
        [[[0, -1], [0, -1]]]).outputs, v.length = 2) ∧
      (∀ v ∈ ((Beam.init 2 0 0 1 2 3 0).advanceAll
        [[[0, -1], [0, -1]]]).bookkeep, v.length = 2)) := by
  refine ⟨by decide, ?_⟩
  exact c7_shape_invariant 2 2 0 0 1 2 3 0 [[[0, -1], [0, -1]]]
    (by decide) (by decide) (by decide)

/-- Witness for C8: the degenerate `check_finished` applied to a fresh
width-2 beam. -/
theorem c8_check_finished_degenerate_witness :
    ((Beam.init 2 0 0 1 2 3 0).finished = [] ∧
      (Beam.init 2 0 0 1 2 3 0).outputs.getLastD [] ≠ []) ∧
    (((Beam.init 2 0 0 1 2 3 0).check_finished).finished =
        [⟨(Beam.init 2 0 0 1 2 3 0).outputs.length - 1, 0,
          ((Beam.init 2 0 0 1 2 3 0).all_scores.getLastD []).getD 0 0,
          (Beam.init 2 0 0 1 2 3 0).eos⟩] ∧
      idx2 ((Beam.init 2 0 0 1 2 3 0).check_finished).outputs
        (((Beam.init 2 0 0 1 2 3 0).check_finished).outputs.length - 1) 0 0
        = (Beam.init 2 0 0 1 2 3 0).eos ∧
      ((Beam.init 2 0 0 1 2 3 0).check_finished).outputs.length
        = (Beam.init 2 0 0 1 2 3 0).outputs.length) :=
  ⟨⟨rfl, by decide⟩,
    c8_check_finished_degenerate (Beam.init 2 0 0 1 2 3 0) rfl (by decide)⟩

/-- Witness for C10: the mask description applied to a fresh beam below its
length floor on a matrix with a non-sentinel `eos` entry. -/
theorem c10_masked_input_witness :
    ((exFresh.all_scores.length : Int) - 1 < (exFresh.min_length : Int)) ∧
    idx2 (exFresh.masked_input [[5, 6, 7]]) 0 1 0 = idx2 [[5, 6, 7]] 0 1 0 ∧
    idx2 (exFresh.masked_input [[5, 6, 7]]) 0 exFresh.eos 0 = -NEAR_INF ∧
    exFresh.masked_input [[5, 6, 7]] ≠ [[5, 6, 7]] := by
  have hcond : (exFresh.all_scores.length : Int) - 1
      < (exFresh.min_length : Int) := by decide
  obtain ⟨h1, h2, h3⟩ := (c10_masked_input exFresh [[5, 6, 7]]).1 hcond
  exact ⟨hcond, h1 0 1 (by decide) (by decide), h2 0 (by decide) (by decide),
    h3 ⟨0, by decide, by decide, by decide⟩⟩
